import Mathlib

/-!
# Verification of the snep parser, tree-builder and round-trip serializer

This development is a shallow embedding of `src/parser.rs` (and the parts of
`src/debug.rs` it uses).  Byte strings are modelled as `List Nat` (each entry
one byte), fallible operations (the `unwrap`s inside the lexer) are modelled
with `Option`, and the lexer's regular expression is modelled by a direct
implementation of its leftmost-first matching semantics.

Layout:
* delimiter primitives, locations, byte classifiers;
* the lexer (`tryTagAt`/`scanMatch` model the regex, `tokenize` models
  `Lexer::refill` iterated to exhaustion);
* UTF-8 lossy decoding and `debug_utf8` display, used by diagnostics;
* the tree-builder (`stepToken`, `finalizeState`, `Node.parse`);
* the serializer (`writeNode`, `writeNodes`, `render_doc`);
* theorems for the specification claims.
-/

namespace Snep

/-- Byte value of the escape marker `\` (`const ESCAPER: u8 = b'\\'`). -/
def ESCAPER : Nat := 92

/-- Byte value of the divider `|` (`const DIVIDER: u8 = b'|'`). -/
def DIVIDER : Nat := 124

/-- `is_ascii_space`: space, or `0x9 <= c < 0xe` (tab, `\n`, vtab, formfeed, `\r`). -/
def is_ascii_space (c : Nat) : Bool :=
  c == 32 || (9 ≤ c && c < 14)

/-- `is_word_char`: not ascii space, not the divider, not the escaper.
Note that the six delimiter bytes `()[]{}` *are* word characters here. -/
def is_word_char (c : Nat) : Bool :=
  !(is_ascii_space c || c == DIVIDER || c == ESCAPER)

/-- `delimiter::Direction`. -/
inductive Direction where
  | Open : Direction
  | Close : Direction
deriving DecidableEq, Repr

/-- `delimiter::Delim`. -/
inductive Delim where
  | Parenthesis : Delim
  | Bracket : Delim
  | Brace : Delim
deriving DecidableEq, Repr

/-- `delimiter::Delimiter(Direction, Delim)`. -/
structure Delimiter where
  dir : Direction
  kind : Delim
deriving DecidableEq, Repr

/-- `Delim::open`. -/
def Delim.open (k : Delim) : Delimiter := ⟨Direction.Open, k⟩

/-- `Delim::close`. -/
def Delim.close (k : Delim) : Delimiter := ⟨Direction.Close, k⟩

/-- `Delimiter::try_from::<u8>`. -/
def Delimiter.tryFrom (c : Nat) : Option Delimiter :=
  if c == 40 then some ⟨Direction.Open, Delim.Parenthesis⟩
  else if c == 41 then some ⟨Direction.Close, Delim.Parenthesis⟩
  else if c == 91 then some ⟨Direction.Open, Delim.Bracket⟩
  else if c == 93 then some ⟨Direction.Close, Delim.Bracket⟩
  else if c == 123 then some ⟨Direction.Open, Delim.Brace⟩
  else if c == 125 then some ⟨Direction.Close, Delim.Brace⟩
  else none

/-- `Delimiter::as_bytes`. -/
def Delimiter.asBytes : Delimiter → List Nat
  | ⟨Direction.Open, Delim.Parenthesis⟩ => [40]
  | ⟨Direction.Close, Delim.Parenthesis⟩ => [41]
  | ⟨Direction.Open, Delim.Bracket⟩ => [91]
  | ⟨Direction.Close, Delim.Bracket⟩ => [93]
  | ⟨Direction.Open, Delim.Brace⟩ => [123]
  | ⟨Direction.Close, Delim.Brace⟩ => [125]

/-- `Delimiter::as_u8`. -/
def Delimiter.asU8 (d : Delimiter) : Nat := d.asBytes.headD 0

/-- `Loc`: file name (empty means unknown) with zero-based row and column. -/
structure Loc where
  name : List Nat
  row : Nat
  col : Nat
deriving DecidableEq, Repr

/-- `Loc::update`: advance over consumed bytes; newline resets the column. -/
def Loc.update (l : Loc) (bytes : List Nat) : Loc :=
  bytes.foldl
    (fun l c =>
      let l2 := { l with col := l.col + 1 }
      if c == 10 then { l2 with col := 0, row := l2.row + 1 } else l2)
    l

/-- `Loc::default()` (empty name). -/
def Loc.default : Loc := { name := [], row := 0, col := 0 }

/-- `Token`: a literal chunk or a word immediately followed by one delimiter. -/
inductive Token where
  | Chunk : List Nat → Token
  | Tag : List Nat → Delimiter → Token
deriving DecidableEq, Repr

/-! ## The lexer's regular expression

`Lexer::refill` matches `^(.*?)((:?\\[^ \t\\|()\[\]{}]*)?[\])}]|[\\|]?[^ \t\\|()\[\]{}]*[(\[{])`
against the remaining input.  Group 1 is the chunk, group 2 the tag.  We model
the byte class `[^ \t\\|()\[\]{}]` as `regexWordByte` and the leftmost-first
match by scanning positions left to right (`scanMatch`), trying at each
position first the closer alternative then the opener alternative
(`tryTagAt`).  Note the closer alternative's optional prefix `(:?\\…*)?`
begins with an optional literal colon (the source spells `(:?`, not `(?:`).

This model is byte-wise.  The source uses `regex::bytes::Regex` without
`(?-u)`, so its Unicode mode is on: the dotall lazy `.` and the negated
class match one UTF-8 scalar encoding at a time and cannot cross a byte
sequence that is not valid UTF-8, while the byte-wise model advances a byte
at a time.  Every byte the class excludes is ASCII, so on all-ASCII input
(every byte < 0x80) one scalar is one byte and the two semantics produce
identical matches; the universally quantified round-trip statements below
are therefore restricted to all-ASCII input (`allAscii`), where this model
is exact.  Concrete inputs in the other claims are all ASCII. -/

/-- The regex byte class `[^ \t\\|()\[\]{}]`: anything except space, tab,
backslash, pipe and the six delimiters.  (Unlike `is_word_char`, `\n` `\v`
`\f` `\r` are allowed here.) -/
def regexWordByte (c : Nat) : Bool :=
  !(c == 32 || c == 9 || c == 92 || c == 124 ||
    c == 40 || c == 41 || c == 91 || c == 93 || c == 123 || c == 125)

/-- The three opening delimiter bytes `(` `[` `{`. -/
def isOpenByte (c : Nat) : Bool := c == 40 || c == 91 || c == 123

/-- The three closing delimiter bytes `)` `]` `}`. -/
def isCloseByte (c : Nat) : Bool := c == 41 || c == 93 || c == 125

/-- Try to match the tag alternation (group 2 of the regex) at the head of
`s`; on success return the tag bytes and the remaining input.  Branches:
* `':' '\'` head: the closer alternative's optional prefix with its optional
  colon consumed, then a run of word bytes, then a closer;
* `'\'` head: closer alternative (`\run` then a closer) or opener alternative
  (`\run` then an opener) — the run is the same, the final byte decides;
* `'|'` head: opener alternative with leading `|`;
* otherwise: a lone closer, or a run of word bytes followed by an opener. -/
def tryTagAt : List Nat → Option (List Nat × List Nat)
  | [] => none
  | 58 :: 92 :: rest =>
    match rest.dropWhile regexWordByte with
    | d :: r =>
      if isCloseByte d then
        some (58 :: 92 :: (rest.takeWhile regexWordByte ++ [d]), r)
      else none
    | [] => none
  | 92 :: rest =>
    match rest.dropWhile regexWordByte with
    | d :: r =>
      if isCloseByte d || isOpenByte d then
        some (92 :: (rest.takeWhile regexWordByte ++ [d]), r)
      else none
    | [] => none
  | 124 :: rest =>
    match rest.dropWhile regexWordByte with
    | d :: r =>
      if isOpenByte d then
        some (124 :: (rest.takeWhile regexWordByte ++ [d]), r)
      else none
    | [] => none
  | c :: cs =>
    if isCloseByte c then some ([c], cs)
    else
      match (c :: cs).dropWhile regexWordByte with
      | d :: r =>
        if isOpenByte d then
          some ((c :: cs).takeWhile regexWordByte ++ [d], r)
        else none
      | [] => none

/-- Leftmost match of the regex: the smallest split `s = chunk ++ tag ++ rest`
such that the tag alternation matches at the start of `tag ++ rest`. -/
def scanMatch : List Nat → Option (List Nat × List Nat × List Nat)
  | [] => none
  | c :: cs =>
    match tryTagAt (c :: cs) with
    | some (tag, rest) => some ([], tag, rest)
    | none =>
      match scanMatch cs with
      | some (chunk, tag, rest) => some (c :: chunk, tag, rest)
      | none => none

/-- Split a list into its initial part and its last element. -/
def splitLastOpt : List Nat → Option (List Nat × Nat)
  | [] => none
  | [a] => some ([], a)
  | a :: b :: rest =>
    match splitLastOpt (b :: rest) with
    | some (w, d) => some (a :: w, d)
    | none => none

/-- The lexer drops a single leading divider byte from the word
(`if let Some((&b'|', word)) = word.split_first()`). -/
def stripDividerWord (w : List Nat) : List Nat :=
  match w with
  | 124 :: w2 => w2
  | _ => w

theorem dropWhile_cons_decomp {p : Nat → Bool} {l r : List Nat} {d : Nat}
    (h : l.dropWhile p = d :: r) : l = l.takeWhile p ++ d :: r := by
  have := List.takeWhile_append_dropWhile p l
  rw [h] at this
  exact this.symm

theorem tryTagAt_eq_append {s tag rest : List Nat}
    (h : tryTagAt s = some (tag, rest)) : s = tag ++ rest ∧ tag ≠ [] := by
  unfold tryTagAt at h
  split at h
  · exact absurd h (by simp)
  case _ rest' =>
    split at h
    next d r heq =>
      split at h
      · simp only [Option.some.injEq, Prod.mk.injEq] at h
        obtain ⟨h1, h2⟩ := h
        subst h1 h2
        refine ⟨?_, by simp⟩
        conv_lhs => rw [dropWhile_cons_decomp heq]
        simp
      · exact absurd h (by simp)
    next => exact absurd h (by simp)
  case _ rest' =>
    split at h
    next d r heq =>
      split at h
      · simp only [Option.some.injEq, Prod.mk.injEq] at h
        obtain ⟨h1, h2⟩ := h
        subst h1 h2
        refine ⟨?_, by simp⟩
        conv_lhs => rw [dropWhile_cons_decomp heq]
        simp
      · exact absurd h (by simp)
    next => exact absurd h (by simp)
  case _ rest' =>
    split at h
    next d r heq =>
      split at h
      · simp only [Option.some.injEq, Prod.mk.injEq] at h
        obtain ⟨h1, h2⟩ := h
        subst h1 h2
        refine ⟨?_, by simp⟩
        conv_lhs => rw [dropWhile_cons_decomp heq]
        simp
      · exact absurd h (by simp)
    next => exact absurd h (by simp)
  case _ c cs _ _ _ =>
    split at h
    · simp only [Option.some.injEq, Prod.mk.injEq] at h
      obtain ⟨h1, h2⟩ := h
      subst h1 h2
      exact ⟨rfl, by simp⟩
    · split at h
      next d r heq =>
        split at h
        · simp only [Option.some.injEq, Prod.mk.injEq] at h
          obtain ⟨h1, h2⟩ := h
          subst h1 h2
          refine ⟨?_, by simp⟩
          conv_lhs => rw [dropWhile_cons_decomp heq]
          simp
        · exact absurd h (by simp)
      next => exact absurd h (by simp)

theorem scanMatch_eq_append {s chunk tag rest : List Nat}
    (h : scanMatch s = some (chunk, tag, rest)) :
    s = chunk ++ tag ++ rest ∧ tag ≠ [] := by
  induction s generalizing chunk tag rest with
  | nil => simp [scanMatch] at h
  | cons c cs ih =>
    unfold scanMatch at h
    rcases ht : tryTagAt (c :: cs) with _ | ⟨t, r⟩
    · rw [ht] at h
      simp only at h
      rcases hm : scanMatch cs with _ | ⟨ch, tg, rs⟩
      · rw [hm] at h; exact absurd h (by simp)
      · rw [hm] at h
        simp only [Option.some.injEq, Prod.mk.injEq] at h
        obtain ⟨h1, h2, h3⟩ := h
        obtain ⟨ha, hb⟩ := ih hm
        subst h1 h2 h3
        refine ⟨?_, hb⟩
        rw [List.cons_append, List.cons_append, ← List.cons_append]
        rw [List.cons_append, ← ha]
    · rw [ht] at h
      simp only [Option.some.injEq, Prod.mk.injEq] at h
      obtain ⟨h1, h2, h3⟩ := h
      obtain ⟨ha, hb⟩ := tryTagAt_eq_append ht
      subst h1 h2 h3
      exact ⟨by simpa using ha, hb⟩

theorem scanMatch_rest_lt {s chunk tag rest : List Nat}
    (h : scanMatch s = some (chunk, tag, rest)) : rest.length < s.length := by
  obtain ⟨ha, hb⟩ := scanMatch_eq_append h
  subst ha
  have : 0 < tag.length := List.length_pos.mpr hb
  simp only [List.length_append]
  omega

/-- The token stream: iterate `Lexer::refill` until the input is exhausted,
with explicit fuel (structural recursion; `tokenize` supplies enough fuel for
the whole input, each refill consuming at least one byte).  `none` models a
panic of one of the `unwrap`s inside `refill` (`split_last().unwrap()` and
`Delimiter::try_from(..).unwrap()`). -/
def tokenizeF : Nat → List Nat → Loc → Option (List (Loc × Token))
  | 0, _, _ => none
  | _ + 1, [], _ => some []
  | fuel + 1, c :: cs, loc =>
    match scanMatch (c :: cs) with
    | none => some [(loc, Token.Chunk (c :: cs))]
    | some (chunk, tag, rest) =>
      match splitLastOpt tag with
      | none => none
      | some (w, d) =>
        match Delimiter.tryFrom d with
        | none => none
        | some delim =>
          let word := stripDividerWord w
          let loc1 := loc.update chunk
          let loc2 := loc1.update tag
          match tokenizeF fuel rest loc2 with
          | none => none
          | some ts =>
            some ((loc, Token.Chunk chunk) :: (loc1, Token.Tag word delim) :: ts)

/-- The full token stream of an input. -/
def tokenize (s : List Nat) (loc : Loc) : Option (List (Loc × Token)) :=
  tokenizeF (s.length + 1) s loc

/-! ## UTF-8 handling for diagnostics

Diagnostics use `String::from_utf8_lossy` and the `Display` instance of
`debug_utf8` from `src/debug.rs`.  We model Rust's UTF-8 validation with its
`error_len` semantics: `Except.ok n` is a valid sequence of `n` bytes at the
head, `Except.error (some n)` an invalid sequence of `n` bytes to replace,
`Except.error none` an unexpectedly truncated sequence at the end. -/

/-- A UTF-8 continuation byte `0x80..=0xBF`. -/
def isContByte (c : Nat) : Bool := 128 ≤ c && c ≤ 191

/-- Length of the UTF-8 sequence at the head of `s`, with Rust's
`Utf8Error::error_len` semantics on failure. -/
def utf8SeqLen : List Nat → Except (Option Nat) Nat
  | [] => Except.error none
  | b :: rest =>
    if b < 128 then Except.ok 1
    else if b < 194 then Except.error (some 1)
    else if b < 224 then
      match rest with
      | [] => Except.error none
      | b2 :: _ => if isContByte b2 then Except.ok 2 else Except.error (some 1)
    else if b < 240 then
      match rest with
      | [] => Except.error none
      | b2 :: rest2 =>
        let ok2 :=
          if b == 224 then 160 ≤ b2 && b2 ≤ 191
          else if b == 237 then 128 ≤ b2 && b2 ≤ 159
          else isContByte b2
        if !ok2 then Except.error (some 1)
        else
          match rest2 with
          | [] => Except.error none
          | b3 :: _ => if isContByte b3 then Except.ok 3 else Except.error (some 2)
    else if b < 245 then
      match rest with
      | [] => Except.error none
      | b2 :: rest2 =>
        let ok2 :=
          if b == 240 then 144 ≤ b2 && b2 ≤ 191
          else if b == 244 then 128 ≤ b2 && b2 ≤ 143
          else isContByte b2
        if !ok2 then Except.error (some 1)
        else
          match rest2 with
          | [] => Except.error none
          | b3 :: rest3 =>
            if !isContByte b3 then Except.error (some 2)
            else
              match rest3 with
              | [] => Except.error none
              | b4 :: _ =>
                if isContByte b4 then Except.ok 4 else Except.error (some 3)
    else Except.error (some 1)

theorem utf8SeqLen_ok_pos {s : List Nat} {n : Nat}
    (h : utf8SeqLen s = Except.ok n) : 0 < n := by
  unfold utf8SeqLen at h
  repeat' split at h
  all_goals try simp_all
  all_goals try (repeat' split at h)
  all_goals try simp_all
  all_goals omega

theorem utf8SeqLen_err_pos {s : List Nat} {n : Nat}
    (h : utf8SeqLen s = Except.error (some n)) : 0 < n := by
  unfold utf8SeqLen at h
  repeat' split at h
  all_goals try simp_all
  all_goals try (repeat' split at h)
  all_goals try simp_all
  all_goals omega

/-- `str::from_utf8(..).is_ok()`, with explicit fuel (each step consumes at
least one byte, so `utf8IsValid` supplies enough). -/
def utf8IsValidF : Nat → List Nat → Bool
  | 0, _ => false
  | _ + 1, [] => true
  | fuel + 1, b :: rest =>
    match utf8SeqLen (b :: rest) with
    | Except.ok n => utf8IsValidF fuel ((b :: rest).drop n)
    | Except.error _ => false

/-- `str::from_utf8(..).is_ok()`. -/
def utf8IsValid (s : List Nat) : Bool := utf8IsValidF (s.length + 1) s

/-- The UTF-8 encoding of U+FFFD REPLACEMENT CHARACTER. -/
def replacementChar : List Nat := [239, 191, 189]

/-- `String::from_utf8_lossy` on bytes, with explicit fuel: valid sequences
are copied, each invalid sequence is replaced by U+FFFD (truncation at end of
input also yields one U+FFFD and stops). -/
def fromUtf8LossyF : Nat → List Nat → List Nat
  | 0, _ => []
  | _ + 1, [] => []
  | fuel + 1, b :: rest =>
    match utf8SeqLen (b :: rest) with
    | Except.ok n => (b :: rest).take n ++ fromUtf8LossyF fuel ((b :: rest).drop n)
    | Except.error (some n) => replacementChar ++ fromUtf8LossyF fuel ((b :: rest).drop n)
    | Except.error none => replacementChar

/-- `String::from_utf8_lossy`. -/
def fromUtf8Lossy (s : List Nat) : List Nat := fromUtf8LossyF (s.length + 1) s

/-- One lowercase hex digit. -/
def hexDigit (n : Nat) : Nat := if n < 10 then 48 + n else 87 + n

/-- `{:02x}` of one byte. -/
def hexByte (c : Nat) : List Nat := [hexDigit (c / 16), hexDigit (c % 16)]

/-- `Display` for `debug_utf8(s)`: the bytes themselves when they are valid
UTF-8, otherwise every byte as two lowercase hex digits. -/
def displayDebugUtf8 (s : List Nat) : List Nat :=
  if utf8IsValid s then s else s.flatMap hexByte

/-- Decimal digits of `n` (ASCII). -/
def natToDecimal (n : Nat) : List Nat := (Nat.toDigits 10 n).map Char.toNat

/-- The bytes of `"<unknown>"`. -/
def fragUnknown : List Nat := [60, 117, 110, 107, 110, 111, 119, 110, 62]

/-- `Display` for `Loc`: `"<unknown>"` if the file name is empty, else
`name:row+1:col+1`. -/
def locDisplay (l : Loc) : List Nat :=
  if l.name = [] then fragUnknown
  else l.name ++ [58] ++ natToDecimal (l.row + 1) ++ [58] ++ natToDecimal (l.col + 1)

/-! ## Nodes and elements -/

/-- `Node`: plain text or a named element with a delimiter kind, children and
the location of its opening tag (the `Elem` struct inlined into the
constructor). -/
inductive Node where
  | Text : List Nat → Node
  | Elem : List Nat → Delim → List Node → Loc → Node

mutual

/-- Decidable equality for `Node` (the automatic derivation does not handle
the nested `List Node`). -/
def nodeDecEq : (a b : Node) → Decidable (a = b)
  | Node.Text a, Node.Text b =>
    if h : a = b then isTrue (by rw [h])
    else isFalse (by intro hh; injection hh; contradiction)
  | Node.Text _, Node.Elem _ _ _ _ => isFalse (by intro hh; exact Node.noConfusion hh)
  | Node.Elem _ _ _ _, Node.Text _ => isFalse (by intro hh; exact Node.noConfusion hh)
  | Node.Elem n d c l, Node.Elem n2 d2 c2 l2 =>
    if h1 : n = n2 then
      if h2 : d = d2 then
        match nodeListDecEq c c2 with
        | isTrue h3 =>
          if h4 : l = l2 then isTrue (by rw [h1, h2, h3, h4])
          else isFalse (by intro hh; injection hh; contradiction)
        | isFalse h3 => isFalse (by intro hh; injection hh; contradiction)
      else isFalse (by intro hh; injection hh; contradiction)
    else isFalse (by intro hh; injection hh; contradiction)

/-- Decidable equality for `List Node`. -/
def nodeListDecEq : (a b : List Node) → Decidable (a = b)
  | [], [] => isTrue rfl
  | [], _ :: _ => isFalse (by intro hh; exact List.noConfusion hh)
  | _ :: _, [] => isFalse (by intro hh; exact List.noConfusion hh)
  | a :: as, b :: bs =>
    match nodeDecEq a b with
    | isTrue h1 =>
      match nodeListDecEq as bs with
      | isTrue h2 => isTrue (by rw [h1, h2])
      | isFalse h2 => isFalse (by intro hh; injection hh; contradiction)
    | isFalse h1 => isFalse (by intro hh; injection hh; contradiction)

end

instance : DecidableEq Node := nodeDecEq

/-- The parser's in-progress element (`Elem` as used on the stack). -/
structure Elem where
  name : List Nat
  delim : Delim
  children : List Node
  loc : Loc
deriving DecidableEq

/-- `is_literal`: the name's first byte is the escape marker. -/
def is_literal (name : List Nat) : Bool :=
  match name.head? with
  | some c => c == ESCAPER
  | none => false

/-- `escape_delim`: a literal element named `\` wrapping the delimiter's
character, used as the escaped-open-delimiter marker. -/
def escape_delim (d : Delimiter) : Node :=
  Node.Elem [ESCAPER] Delim.Parenthesis [Node.Text d.asBytes] Loc.default

/-- `Elem::into_text_nodes`: melt an element into `[Text name, escaped
opener]` followed by its children (the closing delimiter is not included). -/
def Elem.into_text_nodes (e : Elem) : List Node :=
  Node.Text e.name :: escape_delim (Delim.open e.delim) :: e.children

/-! ## The serializer -/

/-- `NodeWriteState`: whether the previously written text ended in a word
character. -/
inductive NodeWriteState where
  | Clean : NodeWriteState
  | Sticky : NodeWriteState
deriving DecidableEq, Repr

mutual

/-- `WriteTo for Node`: returns the written bytes and the state after.
For text, the state becomes `Sticky` iff the last byte (space if empty) is a
word character.  For an element: a divider first if the incoming state is
`Sticky`, then name, opening delimiter, children (threading the *incoming*
state), the name again for literal elements, the closing delimiter; the
state after is `Clean`. -/
def writeNode : Node → NodeWriteState → List Nat × NodeWriteState
  | Node.Text t, _ =>
    (t, if is_word_char (t.getLastD 32) then NodeWriteState.Sticky
        else NodeWriteState.Clean)
  | Node.Elem name delim children _, s =>
    let pre : List Nat :=
      match s with
      | NodeWriteState.Sticky => [DIVIDER]
      | NodeWriteState.Clean => []
    let body := writeNodes children s
    (pre ++ name ++ (Delim.open delim).asBytes ++ body.1 ++
      (if is_literal name then name else []) ++ (Delim.close delim).asBytes,
     NodeWriteState.Clean)

/-- `WriteTo for [Node]`: write each node in order, threading the state. -/
def writeNodes : List Node → NodeWriteState → List Nat × NodeWriteState
  | [], s => ([], s)
  | n :: ns, s =>
    let r1 := writeNode n s
    let r2 := writeNodes ns r1.2
    (r1.1 ++ r2.1, r2.2)

end

/-- `render_doc`: write a forest starting from the `Clean` state. -/
def render_doc (nodes : List Node) : List Nat :=
  (writeNodes nodes NodeWriteState.Clean).1

/-! ## The tree-builder -/

/-- Diagnostic fragment `": ‘"` (UTF-8, curly quote). -/
def fragColonQuote : List Nat := [58, 32, 226, 128, 152]

/-- Diagnostic fragment `"’ doesn’t close ‘"`. -/
def fragDoesntClose : List Nat :=
  [226, 128, 153, 32, 100, 111, 101, 115, 110, 226, 128, 153, 116, 32,
   99, 108, 111, 115, 101, 32, 226, 128, 152]

/-- Diagnostic fragment `"’ at "`. -/
def fragAt : List Nat := [226, 128, 153, 32, 97, 116, 32]

/-- Diagnostic fragment `"’ doesn’t close anything"`. -/
def fragDoesntCloseAnything : List Nat :=
  [226, 128, 153, 32, 100, 111, 101, 115, 110, 226, 128, 153, 116, 32,
   99, 108, 111, 115, 101, 32, 97, 110, 121, 116, 104, 105, 110, 103]

/-- Diagnostic fragment `"’ was never closed"`. -/
def fragNeverClosed : List Nat :=
  [226, 128, 153, 32, 119, 97, 115, 32, 110, 101, 118, 101, 114, 32,
   99, 108, 111, 115, 101, 100]

/-- `"<loc>: ‘<closer>’ doesn’t close ‘<name><opener>’ at <openLoc>"`
(the name is shown via `debug_utf8`, the delimiters via lossy decoding). -/
def mismatchMsg (loc : Loc) (closer : Delimiter) (name : List Nat)
    (opener : Delimiter) (openLoc : Loc) : List Nat :=
  locDisplay loc ++ fragColonQuote ++ fromUtf8Lossy closer.asBytes ++
    fragDoesntClose ++ displayDebugUtf8 name ++ fromUtf8Lossy opener.asBytes ++
    fragAt ++ locDisplay openLoc

/-- `"<loc>: ‘<closer>’ doesn’t close anything"`. -/
def unmatchedMsg (loc : Loc) (closer : Delimiter) : List Nat :=
  locDisplay loc ++ fragColonQuote ++ fromUtf8Lossy closer.asBytes ++
    fragDoesntCloseAnything

/-- `"<loc>: ‘<name><opener>’ was never closed"` for the element `e`. -/
def neverClosedMsg (e : Elem) : List Nat :=
  locDisplay e.loc ++ fragColonQuote ++ fromUtf8Lossy e.name ++
    fromUtf8Lossy (Delim.open e.delim).asBytes ++ fragNeverClosed

/-- The tree-builder's state: diagnostics so far, the stack of suspended
elements (head = most recently suspended; the Rust `Vec` reversed), and the
current element. -/
structure PState where
  errs : List (List Nat)
  stack : List Elem
  top : Elem
deriving DecidableEq

/-- The implicit root: empty name, `Parenthesis`, no children, default
location. -/
def rootElem : Elem :=
  { name := [], delim := Delim.Parenthesis, children := [], loc := Loc.default }

/-- One step of `Node::parse_tokens`' token loop. -/
def stepToken (st : PState) (lt : Loc × Token) : PState :=
  let esc := is_literal st.top.name
  match lt with
  | (_, Token.Chunk s) =>
    { st with top := { st.top with children := st.top.children ++ [Node.Text s] } }
  | (loc, Token.Tag word delim) =>
    if esc && st.top.name ≠ word then
      { st with top := { st.top with
          children := st.top.children ++ [Node.Text word, Node.Text delim.asBytes] } }
    else
      match delim with
      | ⟨Direction.Open, dtype⟩ =>
        { st with
          stack := st.top :: st.stack,
          top := { name := word, delim := dtype, children := [], loc := loc } }
      | ⟨Direction.Close, dtype⟩ =>
        let top1 :=
          if !esc then
            { st.top with children := st.top.children ++ [Node.Text word] }
          else st.top
        if top1.delim ≠ dtype then
          { st with
            errs := st.errs ++
              [mismatchMsg loc ⟨Direction.Close, dtype⟩ top1.name
                (Delim.open top1.delim) top1.loc],
            top := { top1 with
              children := top1.children ++ [escape_delim (Delim.open top1.delim)] } }
        else
          match st.stack with
          | [] =>
            { st with
              errs := st.errs ++ [unmatchedMsg loc ⟨Direction.Close, dtype⟩],
              top := { top1 with
                children := top1.children ++
                  [Node.Text (Delimiter.asBytes ⟨Direction.Close, dtype⟩)] } }
          | newTop :: rest =>
            { st with
              stack := rest,
              top := { newTop with
                children := newTop.children ++
                  [Node.Elem top1.name top1.delim top1.children top1.loc] } }

/-- The finalization of `Node::parse_tokens`: if the stack is non-empty,
record one "was never closed" diagnostic for the current element, take the
root's children, and melt every remaining element from outermost to
innermost. -/
def finalizeState (st : PState) : List Node × List (List Nat) :=
  match st.stack.reverse with
  | [] => (st.top.children, st.errs)
  | root :: others =>
    (root.children ++ (others ++ [st.top]).flatMap Elem.into_text_nodes,
     st.errs ++ [neverClosedMsg st.top])

/-- The initial parser state: no diagnostics, empty stack, the implicit root
as the current element. -/
def initState : PState := { errs := [], stack := [], top := rootElem }

/-- `Node::parse_tokens`. -/
def parseTokens (tokens : List (Loc × Token)) : List Node × List (List Nat) :=
  finalizeState (tokens.foldl stepToken initState)

/-- `Node::parse`: lex then build.  `none` models a lexer panic (proved
impossible below). -/
def Node.parse (s : List Nat) (path : List Nat) :
    Option (List Node × List (List Nat)) :=
  (tokenize s { name := path, row := 0, col := 0 }).map parseTokens

/-- `render(parse(s).forest)` with an unknown file name. -/
def renderParse (s : List Nat) : Option (List Nat) :=
  (Node.parse s []).map (fun r => render_doc r.1)

/-! ## Helpers for stating the claims -/

/-- Bytes of a list of characters. -/
def strBytes (cs : List Char) : List Nat := cs.map Char.toNat

/-- Concatenated text of the `Text` nodes of a forest. -/
def textConcat : List Node → List Nat
  | [] => []
  | Node.Text t :: ns => t ++ textConcat ns
  | Node.Elem _ _ _ _ :: ns => textConcat ns

/-- `s` contains no escape marker `\`. -/
def noEscaper (s : List Nat) : Bool := s.all (fun c => !(c == ESCAPER))

/-- `s` contains no divider `|`. -/
def noDivider (s : List Nat) : Bool := s.all (fun c => !(c == DIVIDER))

/-- Every byte of `s` is ASCII (< 0x80): on such input the byte-wise lexer
model coincides exactly with the source's Unicode-mode `regex::bytes`
matching. -/
def allAscii (s : List Nat) : Bool := s.all (fun c => c < 128)

/-- Checker for the round-trip precondition, walking the input the way the
lexer does while tracking the stack of open delimiter kinds:
* every tag ends in a recognizable delimiter;
* openers and closers are properly nested and kind-matched, and everything
  opened is closed (well-formedness);
* an opening tag carries a leading divider exactly when the chunk before it
  ends in a word character (no redundant dividers, and no divider missing
  where the serializer would reinsert one). -/
def wfGoF : Nat → List Delim → List Nat → Bool
  | 0, _, _ => false
  | _ + 1, ks, [] => ks.isEmpty
  | fuel + 1, ks, c :: cs =>
    match scanMatch (c :: cs) with
    | none => ks.isEmpty
    | some (chunk, tag, rest) =>
      match splitLastOpt tag with
      | none => false
      | some (_, d) =>
        match Delimiter.tryFrom d with
        | none => false
        | some delim =>
          match delim.dir with
          | Direction.Open =>
            ((tag.head? == some DIVIDER) == is_word_char (chunk.getLastD 32)) &&
              wfGoF fuel (delim.kind :: ks) rest
          | Direction.Close =>
            match ks with
            | [] => false
            | k :: ks2 => k == delim.kind && wfGoF fuel ks2 rest

/-- The round-trip precondition for a whole input. -/
def wfInput (s : List Nat) : Bool := wfGoF (s.length + 1) [] s

/-! ## Claims C2, C3, C5, C7: concrete parses -/

/-- C2: parsing `\x(raw (text) here\x)` yields a forest whose single element
is literal, named `\x`, opened with a parenthesis, and whose children's
concatenated text is exactly `raw (text) here` — the inner `(` and `)` were
swallowed as data (each as a `Text` word plus a `Text` delimiter, with the
surrounding chunks) because their preceding words `""` and `"text"` differ
from the fence name `\x`, while the final `\x` closes the element.  No
diagnostics. -/
theorem C2_literal_fence :
    Node.parse (strBytes ['\\', 'x', '(', 'r', 'a', 'w', ' ', '(', 't', 'e',
      'x', 't', ')', ' ', 'h', 'e', 'r', 'e', '\\', 'x', ')']) [] =
      some ([Node.Text [],
             Node.Elem (strBytes ['\\', 'x']) Delim.Parenthesis
               [Node.Text (strBytes ['r', 'a', 'w', ' ']), Node.Text [],
                Node.Text [40], Node.Text (strBytes ['t', 'e', 'x', 't']),
                Node.Text [], Node.Text [41],
                Node.Text (strBytes [' ', 'h', 'e', 'r', 'e'])]
               ⟨[], 0, 0⟩],
            []) ∧
    is_literal (strBytes ['\\', 'x']) = true ∧
    textConcat [Node.Text (strBytes ['r', 'a', 'w', ' ']), Node.Text [],
      Node.Text [40], Node.Text (strBytes ['t', 'e', 'x', 't']),
      Node.Text [], Node.Text [41],
      Node.Text (strBytes [' ', 'h', 'e', 'r', 'e'])] =
      strBytes ['r', 'a', 'w', ' ', '(', 't', 'e', 'x', 't', ')', ' ',
        'h', 'e', 'r', 'e'] := by
  refine ⟨by decide, by decide, by decide⟩

/-- C3 as stated is false: parsing `a(b)c` does *not* give the element the
children `[Text "", Text "b"]`.  The lexer attaches no word to a plain
closer (the regex peels a word before a closer only when it starts with the
escape marker), so `b` stays in the chunk and the closer contributes its
empty word: the children are `[Text "b", Text ""]`. -/
theorem C3_counterexample :
    Node.parse (strBytes ['a', '(', 'b', ')', 'c']) [] =
      some ([Node.Text [],
             Node.Elem [97] Delim.Parenthesis [Node.Text [98], Node.Text []]
               ⟨[], 0, 0⟩,
             Node.Text [99]],
            []) ∧
    ([Node.Text [],
      Node.Elem [97] Delim.Parenthesis [Node.Text [98], Node.Text []]
        ⟨[], 0, 0⟩,
      Node.Text [99]] : List Node) ≠
      [Node.Text [],
       Node.Elem [97] Delim.Parenthesis [Node.Text [], Node.Text [98]]
         ⟨[], 0, 0⟩,
       Node.Text [99]] := by
  refine ⟨by decide, by decide⟩

/-- C3 amended: parsing `a(b)c` yields the root forest
`[Text "", Element a(Parenthesis){Text "b", Text ""}, Text "c"]` — the word
before an opener becomes the element's name; the text before a closer stays
an ordinary chunk child, and the closer's own (empty) word is appended as a
trailing `Text ""` child.  No diagnostics. -/
theorem C3_trailing_word :
    Node.parse (strBytes ['a', '(', 'b', ')', 'c']) [] =
      some ([Node.Text [],
             Node.Elem [97] Delim.Parenthesis [Node.Text [98], Node.Text []]
               ⟨[], 0, 0⟩,
             Node.Text [99]],
            []) := by
  decide

/-- C5 as stated is false: parsing `x)` yields the forest
`[Text "x", Text "", Text ")"]`, not `[Text "x", Text ")"]` — before the
unmatched-closer recovery the closer's empty word is pushed as `Text ""`. -/
theorem C5_counterexample :
    Node.parse (strBytes ['x', ')']) [] =
      some ([Node.Text [120], Node.Text [], Node.Text [41]],
            [fragUnknown ++ fragColonQuote ++ [41] ++ fragDoesntCloseAnything]) ∧
    ([Node.Text [120], Node.Text [], Node.Text [41]] : List Node) ≠
      [Node.Text [120], Node.Text [41]] := by
  refine ⟨by decide, by decide⟩

/-- C5 amended: parsing `x)` records the single diagnostic
`<unknown>: ‘)’ doesn’t close anything` and returns the forest
`[Text "x", Text "", Text ")"]` (the claimed `Text "x"` and `Text ")"` plus
the closer's empty word). -/
theorem C5_unmatched_closer :
    Node.parse (strBytes ['x', ')']) [] =
      some ([Node.Text [120], Node.Text [], Node.Text [41]],
            [fragUnknown ++ fragColonQuote ++ [41] ++ fragDoesntCloseAnything]) := by
  decide

/-- C7: parsing `a(b]` yields exactly two diagnostics — first
`<unknown>: ‘]’ doesn’t close ‘a(’ at <unknown>`, then
`<unknown>: ‘a(’ was never closed` — and the forest contains no incomplete
element: the unterminated `a(` is melted into `Text "a"`, an
escaped-open-parenthesis marker, and its already-parsed children
(`Text "b"`, the closer's empty word, and the marker appended by the
mismatch recovery). -/
theorem C7_mismatch_recovery :
    Node.parse (strBytes ['a', '(', 'b', ']']) [] =
      some ([Node.Text [], Node.Text [97],
             Node.Elem [92] Delim.Parenthesis [Node.Text [40]] ⟨[], 0, 0⟩,
             Node.Text [98], Node.Text [],
             Node.Elem [92] Delim.Parenthesis [Node.Text [40]] ⟨[], 0, 0⟩],
            [fragUnknown ++ fragColonQuote ++ [93] ++ fragDoesntClose ++
               [97] ++ [40] ++ fragAt ++ fragUnknown,
             fragUnknown ++ fragColonQuote ++ [97] ++ [40] ++
               fragNeverClosed]) := by
  decide

/-! ## Claim C6: the serializer's divider rule -/

/-- C6 as stated is false: the serializer's `is_word_char` does *not*
exclude the delimiter bytes, so a `Text` ending in `)` leaves the flag
`Sticky` and a following element *does* get a divider: rendering
`[Text ")", Element a(Parenthesis){}]` produces `)|a()`, not `)a()`. -/
theorem C6_counterexample :
    is_word_char 41 = true ∧
    render_doc [Node.Text [41], Node.Elem [97] Delim.Parenthesis [] Loc.default] =
      [41, 124, 97, 40, 41] ∧
    ([41, 124, 97, 40, 41] : List Nat) ≠ [41, 97, 40, 41] := by
  refine ⟨by decide, by decide, by decide⟩

/-- C6 amended: after emitting a `Text` the flag becomes `Sticky` iff its
last byte (a space when empty) is a word character in the serializer's sense
— not whitespace, not the divider, not the escape marker; delimiters *are*
word characters here.  Exactly one divider byte is emitted at the start of an
element exactly when the incoming flag is `Sticky` (the children are still
rendered with the incoming flag).  Concretely, an element preceded by
`Text "foo"` gets a divider, one preceded by `Text "foo "` does not, and one
preceded by `Text ")"` does. -/
theorem C6_divider_rule :
    (∀ (t : List Nat) (s0 : NodeWriteState),
      writeNode (Node.Text t) s0 =
        (t, if is_word_char (t.getLastD 32) then NodeWriteState.Sticky
            else NodeWriteState.Clean)) ∧
    (∀ (nm : List Nat) (d : Delim) (cs : List Node) (l : Loc),
      writeNode (Node.Elem nm d cs l) NodeWriteState.Sticky =
        (DIVIDER :: (nm ++ (Delim.open d).asBytes ++
            (writeNodes cs NodeWriteState.Sticky).1 ++
            (if is_literal nm then nm else []) ++ (Delim.close d).asBytes),
         NodeWriteState.Clean)) ∧
    (∀ (nm : List Nat) (d : Delim) (cs : List Node) (l : Loc),
      writeNode (Node.Elem nm d cs l) NodeWriteState.Clean =
        (nm ++ (Delim.open d).asBytes ++
            (writeNodes cs NodeWriteState.Clean).1 ++
            (if is_literal nm then nm else []) ++ (Delim.close d).asBytes,
         NodeWriteState.Clean)) ∧
    render_doc [Node.Text (strBytes ['f', 'o', 'o']),
        Node.Elem [97] Delim.Parenthesis [] Loc.default] =
      strBytes ['f', 'o', 'o', '|', 'a', '(', ')'] ∧
    render_doc [Node.Text (strBytes ['f', 'o', 'o', ' ']),
        Node.Elem [97] Delim.Parenthesis [] Loc.default] =
      strBytes ['f', 'o', 'o', ' ', 'a', '(', ')'] := by
  refine ⟨fun t s0 => rfl, fun nm d cs l => by simp [writeNode, DIVIDER],
    fun nm d cs l => by simp [writeNode], by decide, by decide⟩

/-! ## Claims C1 and C9: counterexamples -/

/-- C1 as stated is false: `a\x(\x)` is well-formed (its one opener is
closed by a same-kind closer whose word `\x` equals the literal element's
name) and contains no divider at all, and its parse is diagnostic-free, yet
rendering the parse produces `a|\x(\x)`: the serializer unconditionally
inserts a divider between sticky text and a following element even though a
word can never lexically glue onto an escape marker. -/
theorem C1_counterexample :
    Node.parse (strBytes ['a', '\\', 'x', '(', '\\', 'x', ')']) [] =
      some ([Node.Text [97],
             Node.Elem (strBytes ['\\', 'x']) Delim.Parenthesis [Node.Text []]
               ⟨[], 0, 1⟩],
            []) ∧
    renderParse (strBytes ['a', '\\', 'x', '(', '\\', 'x', ')']) =
      some (strBytes ['a', '|', '\\', 'x', '(', '\\', 'x', ')']) ∧
    noDivider (strBytes ['a', '\\', 'x', '(', '\\', 'x', ')']) = true ∧
    strBytes ['a', '|', '\\', 'x', '(', '\\', 'x', ')'] ≠
      strBytes ['a', '\\', 'x', '(', '\\', 'x', ')'] := by
  refine ⟨by decide, by decide, by decide, by decide⟩

/-- C9 as stated is false, in two independent ways.
For `a(b]` (a parse with diagnostics), one pass renders `a|\((\)b\((\)` but a
second pass renders `a|\((\)b|\((\)`: the melt of the unterminated element
left a `Text "b"` and a `Text ""` before the escaped-opener marker, while the
re-parse of the rendered text puts `b` directly before the marker, which then
gets a divider.  For `a |||n(c)` (diagnostic-free but with redundant
dividers), each pass strips exactly one redundant divider: pass one gives
`a ||n(c)`, pass two `a |n(c)`. -/
theorem C9_counterexample :
    (renderParse (strBytes ['a', '(', 'b', ']']) =
      some (strBytes ['a', '|', '\\', '(', '(', '\\', ')', 'b',
                      '\\', '(', '(', '\\', ')']) ∧
     renderParse (strBytes ['a', '|', '\\', '(', '(', '\\', ')', 'b',
                            '\\', '(', '(', '\\', ')']) =
      some (strBytes ['a', '|', '\\', '(', '(', '\\', ')', 'b', '|',
                      '\\', '(', '(', '\\', ')']) ∧
     strBytes ['a', '|', '\\', '(', '(', '\\', ')', 'b', '|',
               '\\', '(', '(', '\\', ')'] ≠
       strBytes ['a', '|', '\\', '(', '(', '\\', ')', 'b',
                 '\\', '(', '(', '\\', ')']) ∧
    (renderParse (strBytes ['a', ' ', '|', '|', '|', 'n', '(', 'c', ')']) =
      some (strBytes ['a', ' ', '|', '|', 'n', '(', 'c', ')']) ∧
     renderParse (strBytes ['a', ' ', '|', '|', 'n', '(', 'c', ')']) =
      some (strBytes ['a', ' ', '|', 'n', '(', 'c', ')']) ∧
     strBytes ['a', ' ', '|', 'n', '(', 'c', ')'] ≠
       strBytes ['a', ' ', '|', '|', 'n', '(', 'c', ')']) := by
  refine ⟨⟨by decide, by decide, by decide⟩, ⟨by decide, by decide, by decide⟩⟩

/-! ## Claim C4: finalization diagnostic -/

/-- C4 as stated is false: for `a(b[` — where both `a(` and `b[` are left
open — the single never-closed diagnostic names the *innermost* unterminated
element `b[`, not the outermost `a(`. -/
theorem C4_counterexample :
    Node.parse (strBytes ['a', '(', 'b', '[']) [] =
      some ([Node.Text [], Node.Text [97],
             Node.Elem [92] Delim.Parenthesis [Node.Text [40]] ⟨[], 0, 0⟩,
             Node.Text [], Node.Text [98],
             Node.Elem [92] Delim.Parenthesis [Node.Text [91]] ⟨[], 0, 0⟩],
            [fragUnknown ++ fragColonQuote ++ [98] ++ [91] ++ fragNeverClosed]) ∧
    (fragUnknown ++ fragColonQuote ++ [98] ++ [91] ++ fragNeverClosed : List Nat) ≠
      fragUnknown ++ fragColonQuote ++ [97] ++ [40] ++ fragNeverClosed := by
  refine ⟨by decide, by decide⟩

/-! ## Claim C8: totality of the parser

The only fallible operations are the lexer's `unwrap`s, modelled as `none`
results of `tokenizeF`.  We show a matched tag always ends in one recognized
delimiter byte, so they never fire. -/

theorem tryTagAt_last {s t r : List Nat}
    (h : tryTagAt s = some (t, r)) :
    ∃ w d, t = w ++ [d] ∧ (isOpenByte d || isCloseByte d) = true := by
  unfold tryTagAt at h
  split at h
  · exact absurd h (by simp)
  case _ rest' =>
    split at h
    next d r2 heq =>
      split at h
      next hd =>
        simp only [Option.some.injEq, Prod.mk.injEq] at h
        exact ⟨58 :: 92 :: rest'.takeWhile regexWordByte, d,
          by rw [← h.1]; simp, by simp [hd]⟩
      · exact absurd h (by simp)
    next => exact absurd h (by simp)
  case _ rest' =>
    split at h
    next d r2 heq =>
      split at h
      next hd =>
        simp only [Option.some.injEq, Prod.mk.injEq] at h
        refine ⟨92 :: rest'.takeWhile regexWordByte, d, by rw [← h.1]; simp, ?_⟩
        rcases Bool.or_eq_true_iff.mp hd with h1 | h1 <;> simp [h1]
      · exact absurd h (by simp)
    next => exact absurd h (by simp)
  case _ rest' =>
    split at h
    next d r2 heq =>
      split at h
      next hd =>
        simp only [Option.some.injEq, Prod.mk.injEq] at h
        exact ⟨124 :: rest'.takeWhile regexWordByte, d,
          by rw [← h.1]; simp, by simp [hd]⟩
      · exact absurd h (by simp)
    next => exact absurd h (by simp)
  case _ c cs _ _ _ =>
    split at h
    next hc =>
      simp only [Option.some.injEq, Prod.mk.injEq] at h
      exact ⟨[], c, by rw [← h.1]; simp, by simp [hc]⟩
    · split at h
      next d r2 heq =>
        split at h
        next hd =>
          simp only [Option.some.injEq, Prod.mk.injEq] at h
          exact ⟨(c :: cs).takeWhile regexWordByte, d,
            by rw [← h.1], by simp [hd]⟩
        · exact absurd h (by simp)
      next => exact absurd h (by simp)

theorem scanMatch_tag_last {s chunk tag rest : List Nat}
    (h : scanMatch s = some (chunk, tag, rest)) :
    ∃ w d, tag = w ++ [d] ∧ (isOpenByte d || isCloseByte d) = true := by
  induction s generalizing chunk tag rest with
  | nil => simp [scanMatch] at h
  | cons c cs ih =>
    unfold scanMatch at h
    rcases ht : tryTagAt (c :: cs) with _ | ⟨t, r⟩
    · rw [ht] at h
      simp only at h
      rcases hm : scanMatch cs with _ | ⟨ch, tg, rs⟩
      · rw [hm] at h; exact absurd h (by simp)
      · rw [hm] at h
        simp only [Option.some.injEq, Prod.mk.injEq] at h
        obtain ⟨_, h2, _⟩ := h
        subst h2
        exact ih hm
    · rw [ht] at h
      simp only [Option.some.injEq, Prod.mk.injEq] at h
      obtain ⟨_, h2, _⟩ := h
      subst h2
      exact tryTagAt_last ht

theorem splitLastOpt_append (w : List Nat) (d : Nat) :
    splitLastOpt (w ++ [d]) = some (w, d) := by
  induction w with
  | nil => rfl
  | cons a as ih =>
    cases as with
    | nil => rfl
    | cons b bs =>
      have ih2 : splitLastOpt (b :: (bs ++ [d])) = some (b :: bs, d) := ih
      show (match splitLastOpt (b :: (bs ++ [d])) with
            | some (w, d) => some (a :: w, d)
            | none => none) = some (a :: b :: bs, d)
      rw [ih2]

theorem tryFrom_of_delimByte {d : Nat}
    (h : (isOpenByte d || isCloseByte d) = true) :
    ∃ delim, Delimiter.tryFrom d = some delim := by
  simp only [isOpenByte, isCloseByte, Bool.or_eq_true, beq_iff_eq] at h
  rcases h with ((h | h) | h) | ((h | h) | h) <;> subst h <;> exact ⟨_, rfl⟩

theorem tokenizeF_isSome :
    ∀ (fuel : Nat) (s : List Nat) (loc : Loc), s.length < fuel →
      (tokenizeF fuel s loc).isSome = true := by
  intro fuel
  induction fuel with
  | zero => intro s loc h; omega
  | succ n ih =>
    intro s loc h
    cases s with
    | nil => simp [tokenizeF]
    | cons c cs =>
      rw [tokenizeF]
      rcases hm : scanMatch (c :: cs) with _ | ⟨chunk, tag, rest⟩
      · simp
      · obtain ⟨w, d, htag, hd⟩ := scanMatch_tag_last hm
        obtain ⟨delim, hdelim⟩ := tryFrom_of_delimByte hd
        have hsplit : splitLastOpt tag = some (w, d) := htag ▸ splitLastOpt_append w d
        dsimp only
        rw [hsplit]
        dsimp only
        rw [hdelim]
        dsimp only
        have hlt : rest.length < n := by
          have := scanMatch_rest_lt hm
          simp only [List.length_cons] at this h ⊢
          omega
        have := ih rest ((loc.update chunk).update tag) hlt
        rcases hr : tokenizeF n rest ((loc.update chunk).update tag) with _ | ts
        · rw [hr] at this; exact absurd this (by simp)
        · simp

/-- C8: for every input byte sequence and path, the parser returns a forest
and a list of diagnostics: the lexer's internal `unwrap`s (modelled by the
`none` results of `tokenizeF`) are on unreachable branches, every matched tag
ending in exactly one recognized delimiter byte, and the whole computation is
structurally terminating. -/
theorem C8_parser_totality (s path : List Nat) :
    (Node.parse s path).isSome = true := by
  unfold Node.parse tokenize
  have := tokenizeF_isSome (s.length + 1) s { name := path, row := 0, col := 0 }
    (by omega)
  rcases hr : tokenizeF (s.length + 1) s { name := path, row := 0, col := 0 } with _ | ts
  · rw [hr] at this; exact absurd this (by simp)
  · simp

/-! ## Claim C4: the never-closed diagnostic names the current element -/

theorem finalizeState_snd_of_stack_ne {st : PState} (hne : st.stack ≠ []) :
    (finalizeState st).2 = st.errs ++ [neverClosedMsg st.top] := by
  unfold finalizeState
  cases hrev : st.stack.reverse with
  | nil => exact absurd (by simpa using congrArg List.reverse hrev) hne
  | cons root others => rfl

/-- C4 amended: whenever the parse of an input ends with the open-element
stack non-empty, the finalization appends exactly one diagnostic to those
accumulated during the token loop — a "was never closed" message naming
(name, opening delimiter and location) the *innermost* unterminated element,
i.e. the element that is current when the input ends, not the outermost
one. -/
theorem C4_unterminated_finalization (s path : List Nat)
    (ts : List (Loc × Token))
    (hts : tokenize s { name := path, row := 0, col := 0 } = some ts)
    (hne : (ts.foldl stepToken initState).stack ≠ []) :
    ∃ nodes, Node.parse s path =
      some (nodes,
        (ts.foldl stepToken initState).errs ++
          [neverClosedMsg (ts.foldl stepToken initState).top]) := by
  refine ⟨(parseTokens ts).1, ?_⟩
  unfold Node.parse
  rw [hts]
  simp only [Option.map_some']
  congr 1
  have h2 := finalizeState_snd_of_stack_ne hne
  unfold parseTokens
  rw [← h2]

/-- Witness for C4: for the input `a(`, the parse ends with `a(` still open
and the diagnostics are the token loop's (none) plus the one never-closed
message for it. -/
theorem C4_unterminated_finalization_witness :
    ∃ nodes, Node.parse (strBytes ['a', '(']) [] =
      some (nodes,
        (([(⟨[], 0, 0⟩, Token.Chunk []),
           (⟨[], 0, 0⟩, Token.Tag [97] ⟨Direction.Open, Delim.Parenthesis⟩)]).foldl
            stepToken initState).errs ++
          [neverClosedMsg
            (([(⟨[], 0, 0⟩, Token.Chunk []),
               (⟨[], 0, 0⟩, Token.Tag [97] ⟨Direction.Open, Delim.Parenthesis⟩)]).foldl
                stepToken initState).top]) :=
  C4_unterminated_finalization (strBytes ['a', '(']) []
    [(⟨[], 0, 0⟩, Token.Chunk []),
     (⟨[], 0, 0⟩, Token.Tag [97] ⟨Direction.Open, Delim.Parenthesis⟩)]
    (by decide) (by decide)

/-! ## Claim C10: the implicit root is a parenthesis element -/

/-- The shape of the implicit root that never changes: empty name (so never
literal), `Parenthesis` delimiter, the default location. -/
def rootShape (e : Elem) : Prop :=
  e.name = [] ∧ e.delim = Delim.Parenthesis ∧ e.loc = Loc.default

/-- The last element of a list, with a default for the empty list. -/
def lastElem : List Elem → Elem → Elem
  | [], t => t
  | a :: l, _ => lastElem l a

/-- The bottom-most element of the parser state (the implicit root): the last
element of the stack, or the current element when the stack is empty. -/
def rootOf (st : PState) : Elem := lastElem st.stack st.top

theorem lastElem_shape {stack : List Elem} {t t2 : Elem}
    (h : rootShape (lastElem stack t))
    (hp : t.name = t2.name ∧ t.delim = t2.delim ∧ t.loc = t2.loc) :
    rootShape (lastElem stack t2) := by
  cases stack with
  | nil =>
    exact ⟨hp.1 ▸ h.1, hp.2.1 ▸ h.2.1, hp.2.2 ▸ h.2.2⟩
  | cons a l =>
    exact h

theorem stepToken_root {st : PState} (t : Loc × Token)
    (h : rootShape (rootOf st)) : rootShape (rootOf (stepToken st t)) := by
  unfold rootOf at h ⊢
  rcases t with ⟨loc, tk⟩
  cases tk with
  | Chunk s =>
    exact lastElem_shape h ⟨rfl, rfl, rfl⟩
  | Tag word delim =>
    dsimp only [stepToken]
    split
    · exact lastElem_shape h ⟨rfl, rfl, rfl⟩
    · rcases delim with ⟨dir, kind⟩
      cases dir with
      | Open =>
        dsimp only
        show rootShape (lastElem st.stack st.top)
        exact h
      | Close =>
        dsimp only
        split
        all_goals
          split
          · exact lastElem_shape h ⟨rfl, rfl, rfl⟩
          · cases hstack : st.stack with
            | nil =>
              rw [hstack] at h
              dsimp only
              exact lastElem_shape h ⟨rfl, rfl, rfl⟩
            | cons newTop rest =>
              rw [hstack] at h
              dsimp only
              show rootShape (lastElem rest _)
              exact lastElem_shape h ⟨rfl, rfl, rfl⟩

theorem foldl_root (ts : List (Loc × Token)) (st : PState)
    (h : rootShape (rootOf st)) :
    rootShape (rootOf (ts.foldl stepToken st)) := by
  induction ts generalizing st with
  | nil => exact h
  | cons t ts ih => exact ih _ (stepToken_root t h)

theorem reachable_root (ts : List (Loc × Token)) :
    rootShape (rootOf (ts.foldl stepToken initState)) :=
  foldl_root ts initState ⟨rfl, rfl, rfl⟩

/-- C10: the implicit root is initialized with the `Parenthesis` kind, so in
every reachable state with nothing open (empty stack) a `]` or `}` closer
takes the kind-mismatch recovery path — its (empty-or-not) word is appended,
a diagnostic that it doesn't close `(` is recorded, an escaped-open-delimiter
marker element is appended, and the root stays current with the stack still
empty — whereas a `)` closer matches the root's kind and, the stack being
empty, records the "doesn't close anything" diagnostic and appends
`Text ")"`. -/
theorem C10_root_parenthesis (ts : List (Loc × Token)) (loc : Loc)
    (word : List Nat)
    (hstack : (ts.foldl stepToken initState).stack = []) :
    (stepToken (ts.foldl stepToken initState)
        (loc, Token.Tag word (Delim.close Delim.Bracket)) =
      { errs := (ts.foldl stepToken initState).errs ++
          [mismatchMsg loc (Delim.close Delim.Bracket) []
            (Delim.open Delim.Parenthesis) Loc.default],
        stack := [],
        top := { (ts.foldl stepToken initState).top with
          children := (ts.foldl stepToken initState).top.children ++
            [Node.Text word,
             escape_delim (Delim.open Delim.Parenthesis)] } }) ∧
    (stepToken (ts.foldl stepToken initState)
        (loc, Token.Tag word (Delim.close Delim.Brace)) =
      { errs := (ts.foldl stepToken initState).errs ++
          [mismatchMsg loc (Delim.close Delim.Brace) []
            (Delim.open Delim.Parenthesis) Loc.default],
        stack := [],
        top := { (ts.foldl stepToken initState).top with
          children := (ts.foldl stepToken initState).top.children ++
            [Node.Text word,
             escape_delim (Delim.open Delim.Parenthesis)] } }) ∧
    (stepToken (ts.foldl stepToken initState)
        (loc, Token.Tag word (Delim.close Delim.Parenthesis)) =
      { errs := (ts.foldl stepToken initState).errs ++
          [unmatchedMsg loc (Delim.close Delim.Parenthesis)],
        stack := [],
        top := { (ts.foldl stepToken initState).top with
          children := (ts.foldl stepToken initState).top.children ++
            [Node.Text word, Node.Text [41]] } }) := by
  set st := ts.foldl stepToken initState with hst
  have hroot : rootShape (rootOf st) := reachable_root ts
  have hname : st.top.name = [] := by
    have h2 := hroot.1
    unfold rootOf at h2
    rw [hstack] at h2
    exact h2
  have hdelim : st.top.delim = Delim.Parenthesis := by
    have h2 := hroot.2.1
    unfold rootOf at h2
    rw [hstack] at h2
    exact h2
  have hloc : st.top.loc = Loc.default := by
    have h2 := hroot.2.2
    unfold rootOf at h2
    rw [hstack] at h2
    exact h2
  have hesc : is_literal st.top.name = false := by
    rw [hname]; rfl
  refine ⟨?_, ?_, ?_⟩ <;>
    simp [stepToken, is_literal, hesc, hstack, hdelim, hname, hloc,
      Delim.close, Delim.open, Delimiter.asBytes, List.append_assoc]

/-! ## Round trip: render-side infrastructure

`stRender` renders an in-progress parser state: the root's children, then,
from outermost to innermost suspended element, the divider (when the state is
sticky), name, opening delimiter and children of each still-open element —
exactly the prefix of the final rendered document that the consumed input
corresponds to. -/

theorem writeNodes_append (l1 l2 : List Node) (s : NodeWriteState) :
    writeNodes (l1 ++ l2) s =
      ((writeNodes l1 s).1 ++ (writeNodes l2 (writeNodes l1 s).2).1,
       (writeNodes l2 (writeNodes l1 s).2).2) := by
  induction l1 generalizing s with
  | nil => simp [writeNodes]
  | cons n ns ih =>
    simp only [List.cons_append, writeNodes, List.append_eq]
    rw [ih]
    simp [List.append_assoc]

/-- The serializer state after writing a text chunk. -/
def textState (c : List Nat) : NodeWriteState :=
  if is_word_char (c.getLastD 32) then NodeWriteState.Sticky
  else NodeWriteState.Clean

/-- The divider emitted before an element in a given state. -/
def preOf : NodeWriteState → List Nat
  | NodeWriteState.Sticky => [DIVIDER]
  | NodeWriteState.Clean => []

/-- Render an in-progress chain of open elements, innermost first, the last
entry being the implicit root. -/
def openRenderList : List Elem → List Nat × NodeWriteState
  | [] => ([], NodeWriteState.Clean)
  | [e] => writeNodes e.children NodeWriteState.Clean
  | e :: rest =>
    let prev := openRenderList rest
    let body := writeNodes e.children prev.2
    (prev.1 ++ preOf prev.2 ++ e.name ++ (Delim.open e.delim).asBytes ++ body.1,
     body.2)

/-- Render of an in-progress parser state. -/
def stRender (st : PState) : List Nat × NodeWriteState :=
  openRenderList (st.top :: st.stack)

theorem writeNode_text (t : List Nat) (s : NodeWriteState) :
    writeNode (Node.Text t) s = (t, textState t) := rfl

theorem writeNode_elem (n : List Nat) (d : Delim) (cs : List Node) (l : Loc)
    (s : NodeWriteState) :
    writeNode (Node.Elem n d cs l) s =
      (preOf s ++ n ++ (Delim.open d).asBytes ++ (writeNodes cs s).1 ++
        (if is_literal n then n else []) ++ (Delim.close d).asBytes,
       NodeWriteState.Clean) := by
  cases s <;> rfl

theorem openRenderList_one (e : Elem) :
    openRenderList [e] = writeNodes e.children NodeWriteState.Clean := rfl

theorem openRenderList_cons2 (e1 e2 : Elem) (l : List Elem) :
    openRenderList (e1 :: e2 :: l) =
      ((openRenderList (e2 :: l)).1 ++ preOf (openRenderList (e2 :: l)).2 ++
        e1.name ++ (Delim.open e1.delim).asBytes ++
        (writeNodes e1.children (openRenderList (e2 :: l)).2).1,
       (writeNodes e1.children (openRenderList (e2 :: l)).2).2) := rfl

theorem writeNodes_one (n : Node) (s : NodeWriteState) :
    writeNodes [n] s = writeNode n s := by
  simp [writeNodes]

theorem stRender_pushText (st : PState) (c : List Nat) :
    stRender { st with top :=
        { st.top with children := st.top.children ++ [Node.Text c] } } =
      ((stRender st).1 ++ c, textState c) := by
  unfold stRender
  cases hstack : st.stack with
  | nil =>
    simp only [openRenderList_one, writeNodes_append, writeNodes_one,
      writeNode_text]
  | cons a l =>
    simp only [openRenderList_cons2, writeNodes_append, writeNodes_one,
      writeNode_text]
    simp [List.append_assoc]

theorem stRender_open (st : PState) (word : List Nat) (kind : Delim)
    (loc : Loc) :
    stRender
      { st with
        stack := st.top :: st.stack,
        top := { name := word, delim := kind, children := [], loc := loc } } =
      ((stRender st).1 ++ preOf (stRender st).2 ++ word ++
         (Delim.open kind).asBytes,
       (stRender st).2) := by
  unfold stRender
  simp only [openRenderList_cons2]
  simp [writeNodes]

theorem stRender_close (st : PState) (newTop : Elem) (rest : List Elem)
    (hstack : st.stack = newTop :: rest)
    (hlit : is_literal st.top.name = false) :
    stRender
      { st with
        stack := rest,
        top := { newTop with
                 children := newTop.children ++
                   [Node.Elem st.top.name st.top.delim st.top.children
                     st.top.loc] } } =
      ((stRender st).1 ++ (Delim.close st.top.delim).asBytes,
       NodeWriteState.Clean) := by
  unfold stRender
  rw [hstack]
  cases rest with
  | nil =>
    simp only [openRenderList_one, openRenderList_cons2, writeNodes_append,
      writeNodes_one, writeNode_elem, hlit]
    simp [List.append_assoc]
  | cons r1 r2 =>
    simp only [openRenderList_one, openRenderList_cons2, writeNodes_append,
      writeNodes_one, writeNode_elem, hlit]
    simp [List.append_assoc]

/-! ## Round trip: lexer-side lemmas for escaper-free inputs -/

theorem noEscaper_append {a b : List Nat} (h : noEscaper (a ++ b) = true) :
    noEscaper a = true ∧ noEscaper b = true := by
  simp only [noEscaper, List.all_append, Bool.and_eq_true] at h
  exact h

theorem noEscaper_is_literal {l : List Nat} (h : noEscaper l = true) :
    is_literal l = false := by
  cases l with
  | nil => rfl
  | cons c cs =>
    simp only [noEscaper, List.all_cons, Bool.and_eq_true, Bool.not_eq_eq_eq_not,
      Bool.not_true, beq_eq_false_iff_ne, ne_eq, ESCAPER] at h
    simp [is_literal, ESCAPER, h.1]

theorem splitLastOpt_eq {t w : List Nat} {d : Nat}
    (h : splitLastOpt t = some (w, d)) : t = w ++ [d] := by
  induction t generalizing w with
  | nil => simp [splitLastOpt] at h
  | cons a as ih =>
    cases as with
    | nil =>
      simp only [splitLastOpt, Option.some.injEq, Prod.mk.injEq] at h
      rw [← h.1, ← h.2]
      rfl
    | cons b bs =>
      simp only [splitLastOpt] at h
      rcases hs : splitLastOpt (b :: bs) with _ | ⟨w2, d2⟩
      · rw [hs] at h; exact absurd h (by simp)
      · rw [hs] at h
        simp only [Option.some.injEq, Prod.mk.injEq] at h
        obtain ⟨h1, h2⟩ := h
        subst h2
        rw [← h1]
        simp [ih hs]

theorem noEscaper_stripDivider {w : List Nat} (h : noEscaper w = true) :
    noEscaper (stripDividerWord w) = true := by
  unfold stripDividerWord
  split
  · simp only [noEscaper, List.all_cons, Bool.and_eq_true] at h
    exact h.2
  · exact h

theorem isOpenByte_not_close {d : Nat} (h : isOpenByte d = true) :
    isCloseByte d = false := by
  simp only [isOpenByte, Bool.or_eq_true, beq_iff_eq] at h
  rcases h with (h | h) | h <;> subst h <;> rfl

theorem isOpenByte_ne_divider {d : Nat} (h : isOpenByte d = true) :
    (d == 124) = false := by
  simp only [isOpenByte, Bool.or_eq_true, beq_iff_eq] at h
  rcases h with (h | h) | h <;> subst h <;> rfl

theorem scanMatch_tryTagAt {s chunk tag rest : List Nat}
    (h : scanMatch s = some (chunk, tag, rest)) :
    tryTagAt (tag ++ rest) = some (tag, rest) := by
  induction s generalizing chunk tag rest with
  | nil => simp [scanMatch] at h
  | cons c cs ih =>
    unfold scanMatch at h
    rcases ht : tryTagAt (c :: cs) with _ | ⟨t, r⟩
    · rw [ht] at h
      simp only at h
      rcases hm : scanMatch cs with _ | ⟨ch, tg, rs⟩
      · rw [hm] at h; exact absurd h (by simp)
      · rw [hm] at h
        simp only [Option.some.injEq, Prod.mk.injEq] at h
        obtain ⟨_, h2, h3⟩ := h
        subst h2 h3
        exact ih hm
    · rw [ht] at h
      simp only [Option.some.injEq, Prod.mk.injEq] at h
      obtain ⟨_, h2, h3⟩ := h
      subst h2 h3
      obtain ⟨ha, _⟩ := tryTagAt_eq_append ht
      rw [← ha]
      exact ht

/-- Over escaper-free input a matched tag is either a lone closer byte or a
word (possibly with one leading divider) followed by an opener byte. -/
theorem tryTagAt_noEsc_shape {s t r : List Nat}
    (h : tryTagAt s = some (t, r)) (hesc : noEscaper s = true) :
    (∃ d, isCloseByte d = true ∧ t = [d]) ∨
    (∃ w d, isOpenByte d = true ∧ t = w ++ [d]) := by
  unfold tryTagAt at h
  split at h
  · exact absurd h (by simp)
  case _ rest' =>
    simp [noEscaper, ESCAPER] at hesc
  case _ rest' =>
    simp [noEscaper, ESCAPER] at hesc
  case _ rest' =>
    split at h
    next d r2 heq =>
      split at h
      next hd =>
        simp only [Option.some.injEq, Prod.mk.injEq] at h
        exact Or.inr ⟨124 :: rest'.takeWhile regexWordByte, d, hd,
          by rw [← h.1]; simp⟩
      · exact absurd h (by simp)
    next => exact absurd h (by simp)
  case _ c cs _ _ _ =>
    split at h
    next hc =>
      simp only [Option.some.injEq, Prod.mk.injEq] at h
      exact Or.inl ⟨c, hc, h.1.symm⟩
    · split at h
      next d r2 heq =>
        split at h
        next hd =>
          simp only [Option.some.injEq, Prod.mk.injEq] at h
          exact Or.inr ⟨(c :: cs).takeWhile regexWordByte, d, hd, h.1.symm⟩
        · exact absurd h (by simp)
      next => exact absurd h (by simp)

/-- Over escaper-free input, a tag that ends in a closer byte is that single
byte: its word is empty. -/
theorem closer_word_nil {s chunk tag rest w : List Nat} {d : Nat}
    (h : scanMatch s = some (chunk, tag, rest))
    (hesc : noEscaper s = true)
    (hsplit : splitLastOpt tag = some (w, d))
    (hclose : isCloseByte d = true) : w = [] := by
  obtain ⟨hs, _⟩ := scanMatch_eq_append h
  have hesc2 : noEscaper (tag ++ rest) = true := by
    rw [hs] at hesc
    exact (noEscaper_append ((List.append_assoc _ _ _) ▸ hesc)).2
  have ht := scanMatch_tryTagAt h
  rcases tryTagAt_noEsc_shape ht hesc2 with ⟨d2, hd2, htag⟩ | ⟨w2, d2, hd2, htag⟩
  · subst htag
    simp only [splitLastOpt, Option.some.injEq, Prod.mk.injEq] at hsplit
    exact hsplit.1.symm
  · subst htag
    rw [splitLastOpt_append] at hsplit
    simp only [Option.some.injEq, Prod.mk.injEq] at hsplit
    obtain ⟨h1, h2⟩ := hsplit
    subst h2
    rw [isOpenByte_not_close hd2] at hclose
    exact absurd hclose (by simp)

theorem tryFrom_asBytes {d : Nat} {delim : Delimiter}
    (h : Delimiter.tryFrom d = some delim) :
    delim.asBytes = [d] ∧
    (delim.dir = Direction.Open → isOpenByte d = true) ∧
    (delim.dir = Direction.Close → isCloseByte d = true) := by
  unfold Delimiter.tryFrom at h
  repeat' split at h
  all_goals
    first
    | (simp only [Option.some.injEq] at h
       subst h
       refine ⟨?_, ?_, ?_⟩ <;>
         simp_all [Delimiter.asBytes, isOpenByte, isCloseByte])
    | (exact absurd h (by simp))

/-- Witness for C10 at the empty token list (the initial state, whose stack
is empty), a concrete location and the empty word. -/
theorem C10_root_parenthesis_witness :
    (stepToken (([] : List (Loc × Token)).foldl stepToken initState)
        (⟨[], 0, 0⟩, Token.Tag [] (Delim.close Delim.Bracket)) =
      { errs := (([] : List (Loc × Token)).foldl stepToken initState).errs ++
          [mismatchMsg ⟨[], 0, 0⟩ (Delim.close Delim.Bracket) []
            (Delim.open Delim.Parenthesis) Loc.default],
        stack := [],
        top := { (([] : List (Loc × Token)).foldl stepToken initState).top with
          children := (([] : List (Loc × Token)).foldl stepToken
              initState).top.children ++
            [Node.Text [],
             escape_delim (Delim.open Delim.Parenthesis)] } }) ∧
    (stepToken (([] : List (Loc × Token)).foldl stepToken initState)
        (⟨[], 0, 0⟩, Token.Tag [] (Delim.close Delim.Brace)) =
      { errs := (([] : List (Loc × Token)).foldl stepToken initState).errs ++
          [mismatchMsg ⟨[], 0, 0⟩ (Delim.close Delim.Brace) []
            (Delim.open Delim.Parenthesis) Loc.default],
        stack := [],
        top := { (([] : List (Loc × Token)).foldl stepToken initState).top with
          children := (([] : List (Loc × Token)).foldl stepToken
              initState).top.children ++
            [Node.Text [],
             escape_delim (Delim.open Delim.Parenthesis)] } }) ∧
    (stepToken (([] : List (Loc × Token)).foldl stepToken initState)
        (⟨[], 0, 0⟩, Token.Tag [] (Delim.close Delim.Parenthesis)) =
      { errs := (([] : List (Loc × Token)).foldl stepToken initState).errs ++
          [unmatchedMsg ⟨[], 0, 0⟩ (Delim.close Delim.Parenthesis)],
        stack := [],
        top := { (([] : List (Loc × Token)).foldl stepToken initState).top with
          children := (([] : List (Loc × Token)).foldl stepToken
              initState).top.children ++
            [Node.Text [], Node.Text [41]] } }) :=
  C10_root_parenthesis [] ⟨[], 0, 0⟩ [] (by decide)

/-! ## Round trip: the main induction -/

/-- Stripping a leading divider is the identity unless the word begins with
the divider byte. -/
theorem stripDividerWord_of_ne {w : List Nat} (h : w.head? ≠ some 124) :
    stripDividerWord w = w := by
  unfold stripDividerWord
  split
  next w2 => simp at h
  · rfl

/-- The state invariant of the round-trip induction: the chain of open
elements (current element first, implicit root last) carries exactly the
delimiter kinds the well-formedness checker tracks, and no open element is
literal. -/
def StInv (st : PState) (ks : List Delim) : Prop :=
  ∃ es rootE, st.top :: st.stack = es ++ [rootE] ∧
    ks = es.map Elem.delim ∧
    (∀ e ∈ st.top :: st.stack, is_literal e.name = false)

theorem run_inv :
    ∀ (fuel : Nat) (s : List Nat) (loc : Loc) (st : PState) (ks : List Delim),
      s.length < fuel →
      noEscaper s = true →
      wfGoF fuel ks s = true →
      StInv st ks →
      ∃ ts, tokenizeF fuel s loc = some ts ∧
        (ts.foldl stepToken st).errs = st.errs ∧
        (ts.foldl stepToken st).stack = [] ∧
        (stRender (ts.foldl stepToken st)).1 = (stRender st).1 ++ s := by
  intro fuel
  induction fuel with
  | zero => intro s loc st ks hlen; omega
  | succ n ih =>
    intro s loc st ks hlen hesc hwf hinv
    cases s with
    | nil =>
      obtain ⟨es, rootE, hdec, hks, hlit⟩ := hinv
      have hks0 : ks = [] := by
        have : ks.isEmpty = true := hwf
        simpa [List.isEmpty_iff] using this
      have hes : es = [] := by
        subst hks0
        cases es with
        | nil => rfl
        | cons a l => simp at hks
      subst hes
      have hstack : st.stack = [] := by
        simpa using congrArg List.tail hdec
      exact ⟨[], rfl, rfl, hstack, by simp⟩
    | cons c cs =>
      rcases hm : scanMatch (c :: cs) with _ | ⟨chunk, tag, rest⟩
      · -- trailing chunk: everything must already be closed
        obtain ⟨es, rootE, hdec, hks, hlit⟩ := hinv
        have hks0 : ks = [] := by
          have hwf2 : wfGoF (n + 1) ks (c :: cs) = true := hwf
          unfold wfGoF at hwf2
          rw [hm] at hwf2
          simpa [List.isEmpty_iff] using hwf2
        have hes : es = [] := by
          subst hks0
          cases es with
          | nil => rfl
          | cons a l => simp at hks
        subst hes
        have hstack : st.stack = [] := by
          simpa using congrArg List.tail hdec
        refine ⟨[(loc, Token.Chunk (c :: cs))], ?_, ?_, ?_, ?_⟩
        · unfold tokenizeF
          rw [hm]
        · rfl
        · simpa using hstack
        · rw [List.foldl_cons, List.foldl_nil]
          rw [show stepToken st (loc, Token.Chunk (c :: cs)) =
            { st with top := { st.top with
                children := st.top.children ++ [Node.Text (c :: cs)] } } from rfl]
          rw [stRender_pushText]
      · -- a (chunk, tag) pair followed by the rest
        obtain ⟨hsplit0, htagne⟩ := scanMatch_eq_append hm
        have hlen2 : rest.length < n := by
          have := scanMatch_rest_lt hm
          simp only [List.length_cons] at this hlen
          omega
        have hescparts : noEscaper chunk = true ∧ noEscaper tag = true ∧
            noEscaper rest = true := by
          rw [hsplit0] at hesc
          obtain ⟨h1, h23⟩ := noEscaper_append
            ((List.append_assoc chunk tag rest) ▸ hesc)
          obtain ⟨h2, h3⟩ := noEscaper_append h23
          exact ⟨h1, h2, h3⟩
        have hwf2 : wfGoF (n + 1) ks (c :: cs) = true := hwf
        unfold wfGoF at hwf2
        rw [hm] at hwf2
        dsimp only at hwf2
        rcases hsp : splitLastOpt tag with _ | ⟨w, d⟩
        · rw [hsp] at hwf2; exact absurd hwf2 (by simp)
        rw [hsp] at hwf2
        dsimp only at hwf2
        rcases htf : Delimiter.tryFrom d with _ | delim
        · rw [htf] at hwf2; exact absurd hwf2 (by simp)
        rw [htf] at hwf2
        dsimp only at hwf2
        obtain ⟨hab, habopen, habclose⟩ := tryFrom_asBytes htf
        have htagwd : tag = w ++ [d] := splitLastOpt_eq hsp
        obtain ⟨es, rootE, hdec, hks, hlit⟩ := hinv
        have hlittop : is_literal st.top.name = false :=
          hlit st.top (by simp)
        rcases hdir : delim.dir with _ | _
        · -- Open
          rw [hdir] at hwf2
          dsimp only at hwf2
          rw [Bool.and_eq_true] at hwf2
          obtain ⟨hnrd, hwfrest⟩ := hwf2
          -- the word and divider reconciliation
          have hword := hescparts.2.1
          rw [htagwd] at hword
          have hwordw : noEscaper w = true := (noEscaper_append hword).1
          set word := stripDividerWord w with hwdef
          have hwordlit : is_literal word = false :=
            noEscaper_is_literal (hwdef ▸ noEscaper_stripDivider hwordw)
          have hdopen : isOpenByte d = true := habopen hdir
          -- relate tag.head? and the sticky state after the chunk
          have hpre : preOf (textState chunk) ++ word = w := by
            rcases hw : w with _ | ⟨a, w2⟩
            · have hhd : tag.head? = some d := by
                rw [htagwd, hw]
                rfl
              have : (tag.head? == some DIVIDER) = false := by
                rw [hhd, Option.some_beq_some]
                simpa [DIVIDER] using isOpenByte_ne_divider hdopen
              rw [this] at hnrd
              have hclean : is_word_char (chunk.getLastD 32) = false := by
                cases hwc : is_word_char (chunk.getLastD 32)
                · rfl
                · rw [hwc] at hnrd; exact absurd hnrd (by simp)
              have htS : textState chunk = NodeWriteState.Clean := by
                unfold textState
                rw [hclean]
                simp
              rw [hwdef, hw, htS]
              rfl
            · by_cases ha : a = 124
              · subst ha
                have hhd : tag.head? = some 124 := by
                  rw [htagwd, hw]
                  rfl
                have : (tag.head? == some DIVIDER) = true := by
                  rw [hhd, Option.some_beq_some]
                  simp [DIVIDER]
                rw [this] at hnrd
                have hsticky : is_word_char (chunk.getLastD 32) = true := by
                  cases hwc : is_word_char (chunk.getLastD 32)
                  · rw [hwc] at hnrd; exact absurd hnrd (by simp)
                  · rfl
                have htS : textState chunk = NodeWriteState.Sticky := by
                  unfold textState
                  rw [hsticky]
                  simp
                rw [hwdef, hw, htS]
                rfl
              · have hhd : tag.head? = some a := by
                  rw [htagwd, hw]
                  rfl
                have : (tag.head? == some DIVIDER) = false := by
                  rw [hhd, Option.some_beq_some]
                  simpa [DIVIDER] using ha
                rw [this] at hnrd
                have hclean : is_word_char (chunk.getLastD 32) = false := by
                  cases hwc : is_word_char (chunk.getLastD 32)
                  · rfl
                  · rw [hwc] at hnrd; exact absurd hnrd (by simp)
                have hstrip : stripDividerWord w = w := by
                  rw [hw]
                  exact stripDividerWord_of_ne (by simpa using ha)
                have htS : textState chunk = NodeWriteState.Clean := by
                  unfold textState
                  rw [hclean]
                  simp
                rw [hwdef, hstrip, hw, htS]
                rfl
          -- two parser steps
          set st1 : PState :=
            { st with top := { st.top with
                children := st.top.children ++ [Node.Text chunk] } } with hst1
          set st2 : PState :=
            { st1 with
              stack := st1.top :: st1.stack,
              top := { name := word, delim := delim.kind, children := [],
                       loc := loc.update chunk } } with hst2
          have hstep1 : stepToken st (loc, Token.Chunk chunk) = st1 := rfl
          have hstep2 : stepToken st1 (loc.update chunk, Token.Tag word delim) =
              st2 := by
            unfold stepToken
            dsimp only
            have : is_literal st1.top.name = false := hlittop
            rw [this]
            simp only [Bool.false_and, Bool.false_eq_true, if_false]
            rcases delim with ⟨dir2, kind2⟩
            cases dir2 with
            | Open => rfl
            | Close => simp at hdir
          have hinv2 : StInv st2 (delim.kind :: ks) := by
            refine ⟨{ name := word, delim := delim.kind, children := [],
                      loc := loc.update chunk } ::
                    (match es with
                     | [] => []
                     | _ :: es2 => st1.top :: es2),
                    (match es with
                     | [] => st1.top
                     | _ :: _ => rootE), ?_, ?_, ?_⟩
            · cases es with
              | nil =>
                have : st.stack = [] := by
                  simpa using congrArg List.tail hdec
                simp [hst2, this]
              | cons e es2 =>
                have htail : st.stack = es2 ++ [rootE] := by
                  simpa using congrArg List.tail hdec
                simp [hst2, hst1, htail]
            · cases es with
              | nil =>
                simp only [List.map_cons, List.map_nil]
                have : ks = [] := by simpa using hks
                rw [this]
              | cons e es2 =>
                have htop : st.top = e := by
                  simpa using congrArg List.head? hdec
                simp only [List.map_cons]
                rw [hks]
                simp [hst1, htop]
            · intro e he
              rcases List.mem_cons.mp he with he1 | he2
              · rw [he1]
                exact hwordlit
              · rcases List.mem_cons.mp he2 with h2 | h3
                · rw [h2]
                  exact hlittop
                · exact hlit e (List.mem_cons_of_mem _ h3)
          obtain ⟨ts, hts, herr, hstk, hrend⟩ :=
            ih rest ((loc.update chunk).update tag) st2 (delim.kind :: ks)
              hlen2 hescparts.2.2 hwfrest hinv2
          refine ⟨(loc, Token.Chunk chunk) ::
            (loc.update chunk, Token.Tag word delim) :: ts, ?_, ?_, ?_, ?_⟩
          · unfold tokenizeF
            rw [hm]
            dsimp only
            rw [hsp]
            dsimp only
            rw [htf]
            dsimp only
            rw [hts]
          · rw [List.foldl_cons, List.foldl_cons, hstep1, hstep2]
            rw [herr]
          · rw [List.foldl_cons, List.foldl_cons, hstep1, hstep2]
            exact hstk
          · rw [List.foldl_cons, List.foldl_cons, hstep1, hstep2, hrend]
            have h1 : stRender st1 = ((stRender st).1 ++ chunk, textState chunk) :=
              stRender_pushText st chunk
            have h2 : stRender st2 =
                ((stRender st1).1 ++ preOf (stRender st1).2 ++ word ++
                  (Delim.open delim.kind).asBytes, (stRender st1).2) :=
              stRender_open st1 word delim.kind (loc.update chunk)
            have hob : (Delim.open delim.kind).asBytes = [d] := by
              have : Delim.open delim.kind = delim := by
                rcases delim with ⟨dir2, kind2⟩
                cases dir2 with
                | Open => rfl
                | Close => simp at hdir
              rw [this, hab]
            rw [h2, h1, hob]
            dsimp only
            rw [hsplit0, htagwd]
            rw [show (stRender st).1 ++ chunk ++ preOf (textState chunk) ++
                word ++ [d] ++ rest =
              (stRender st).1 ++ chunk ++ ((preOf (textState chunk) ++ word) ++
                ([d] ++ rest)) from by simp [List.append_assoc]]
            rw [hpre]
            simp [List.append_assoc]
        · -- Close
          rw [hdir] at hwf2
          dsimp only at hwf2
          rcases hksc : ks with _ | ⟨k, ks2⟩
          · rw [hksc] at hwf2; exact absurd hwf2 (by simp)
          rw [hksc] at hwf2
          rw [Bool.and_eq_true] at hwf2
          obtain ⟨hkind, hwfrest⟩ := hwf2
          have hkind2 : k = delim.kind := by simpa using hkind
          have hdclose : isCloseByte d = true := habclose hdir
          have hwnil : w = [] := closer_word_nil hm hesc hsp hdclose
          have hword : stripDividerWord w = [] := by
            rw [hwnil]; rfl
          -- the invariant forces a matching open element
          rcases hes : es with _ | ⟨e, es2⟩
          · rw [hes] at hks
            rw [hksc] at hks
            simp at hks
          rw [hes] at hdec hks
          have htop : st.top = e := by
            simpa using congrArg List.head? hdec
          have hstack : st.stack = es2 ++ [rootE] := by
            simpa using congrArg List.tail hdec
          have htopd : st.top.delim = delim.kind := by
            rw [htop]
            rw [hksc] at hks
            have : k = e.delim := by simpa using congrArg List.head? hks
            rw [← this, hkind2]
          set st1 : PState :=
            { st with top := { st.top with
                children := st.top.children ++ [Node.Text chunk] } } with hst1
          set st1b : PState :=
            { st1 with top := { st1.top with
                children := st1.top.children ++ [Node.Text []] } } with hst1b
          have hstep1 : stepToken st (loc, Token.Chunk chunk) = st1 := rfl
          -- the pop target
          rcases hstk : st1.stack with _ | ⟨newTop, restS⟩
          · exfalso
            have : st.stack = st1.stack := rfl
            rw [this, hstk] at hstack
            cases es2 <;> simp at hstack
          set st2 : PState :=
            { st1b with
              stack := restS,
              top := { newTop with
                children := newTop.children ++
                  [Node.Elem st1b.top.name st1b.top.delim st1b.top.children
                    st1b.top.loc] } } with hst2
          have hstep2 : stepToken st1 (loc.update chunk, Token.Tag [] delim) =
              st2 := by
            unfold stepToken
            dsimp only
            have hl1 : is_literal st1.top.name = false := hlittop
            rw [hl1]
            simp only [Bool.false_and, Bool.false_eq_true, if_false]
            rcases delim with ⟨dir2, kind2⟩
            cases dir2 with
            | Open => simp at hdir
            | Close =>
              dsimp only
              have hd2 : st.top.delim = kind2 := htopd
              have : ({ st1.top with
                  children := st1.top.children ++ [Node.Text []] } : Elem).delim =
                  kind2 := hd2
              rw [if_neg (by simp [this])]
              rw [hstk]
              rfl
          have hinv2 : StInv st2 ks2 := by
            cases es2 with
            | nil =>
              have hs2 : st.stack = [rootE] := by simpa using hstack
              have hstk2 : [rootE] = newTop :: restS := by
                have h0 : st1.stack = newTop :: restS := hstk
                rw [show st1.stack = st.stack from rfl, hs2] at h0
                exact h0
              have hnt : newTop = rootE := by
                injection hstk2 with h1 h2
                exact h1.symm
              have hrestS : restS = [] := by
                injection hstk2 with h1 h2
                exact h2.symm
              refine ⟨[], { newTop with
                children := newTop.children ++
                  [Node.Elem st1b.top.name st1b.top.delim st1b.top.children
                    st1b.top.loc] }, ?_, ?_, ?_⟩
              · simp [hst2, hrestS]
              · rw [hksc] at hks
                simp only [List.map_cons, List.map_nil] at hks
                injection hks with h5 h6
              · intro x hx
                rcases List.mem_cons.mp hx with h1 | h2
                · rw [h1]
                  show is_literal newTop.name = false
                  rw [hnt]
                  exact hlit rootE (by rw [hdec]; simp)
                · have h2b : x ∈ restS := h2
                  rw [hrestS] at h2b
                  simp at h2b
            | cons e2 es3 =>
              have hs2 : st.stack = e2 :: (es3 ++ [rootE]) := by
                simpa using hstack
              have hstk2 : e2 :: (es3 ++ [rootE]) = newTop :: restS := by
                have h0 : st1.stack = newTop :: restS := hstk
                rw [show st1.stack = st.stack from rfl, hs2] at h0
                exact h0
              have hnt : newTop = e2 := by
                injection hstk2 with h1 h2
                exact h1.symm
              have hrestS : restS = es3 ++ [rootE] := by
                injection hstk2 with h1 h2
                exact h2.symm
              refine ⟨{ newTop with
                children := newTop.children ++
                  [Node.Elem st1b.top.name st1b.top.delim st1b.top.children
                    st1b.top.loc] } :: es3, rootE, ?_, ?_, ?_⟩
              · simp [hst2, hrestS]
              · rw [hksc] at hks
                simp only [List.map_cons] at hks
                injection hks with h5 h6
                rw [h6, hnt]
                rfl
              · intro x hx
                rcases List.mem_cons.mp hx with h1 | h2
                · rw [h1]
                  show is_literal newTop.name = false
                  rw [hnt]
                  exact hlit e2 (by rw [hdec]; simp)
                · have h2b : x ∈ restS := h2
                  rw [hrestS] at h2b
                  rcases List.mem_append.mp h2b with h3 | h4
                  · exact hlit x (by rw [hdec]; simp [h3])
                  · have hx4 : x = rootE := by simpa using h4
                    rw [hx4]
                    exact hlit rootE (by rw [hdec]; simp)
          obtain ⟨ts, hts, herr, hstkF, hrend⟩ :=
            ih rest ((loc.update chunk).update tag) st2 ks2
              hlen2 hescparts.2.2 hwfrest hinv2
          refine ⟨(loc, Token.Chunk chunk) ::
            (loc.update chunk, Token.Tag [] delim) :: ts, ?_, ?_, ?_, ?_⟩
          · unfold tokenizeF
            rw [hm]
            dsimp only
            rw [hsp]
            dsimp only
            rw [htf]
            dsimp only
            rw [hword, hts]
          · rw [List.foldl_cons, List.foldl_cons, hstep1, hstep2]
            rw [herr]
          · rw [List.foldl_cons, List.foldl_cons, hstep1, hstep2]
            exact hstkF
          · rw [List.foldl_cons, List.foldl_cons, hstep1, hstep2, hrend]
            have h1 : stRender st1 = ((stRender st).1 ++ chunk, textState chunk) :=
              stRender_pushText st chunk
            have h1b : stRender st1b = ((stRender st1).1 ++ [], textState []) :=
              stRender_pushText st1 []
            have hl1b : is_literal st1b.top.name = false := hlittop
            have h2 : stRender st2 =
                ((stRender st1b).1 ++ (Delim.close st1b.top.delim).asBytes,
                  NodeWriteState.Clean) :=
              stRender_close st1b newTop restS hstk hl1b
            have hcb : (Delim.close st1b.top.delim).asBytes = [d] := by
              have hk3 : st1b.top.delim = delim.kind := htopd
              rw [hk3]
              have : Delim.close delim.kind = delim := by
                rcases delim with ⟨dir2, kind2⟩
                cases dir2 with
                | Open => simp at hdir
                | Close => rfl
              rw [this, hab]
            rw [h2, h1b, h1, hcb]
            dsimp only
            rw [hsplit0, htagwd, hwnil]
            simp [List.append_assoc]

/-! ## Round trip: assembling the corollaries -/

/-- For an escaper-free input satisfying the round-trip precondition, the
parse succeeds with no diagnostics and rendering the resulting forest
reproduces the input exactly. -/
theorem parse_render_of_wf (s : List Nat)
    (hesc : noEscaper s = true) (hwf : wfInput s = true) :
    ∃ forest, Node.parse s [] = some (forest, []) ∧ render_doc forest = s := by
  obtain ⟨ts, hts, herr, hstk, hrend⟩ :=
    run_inv (s.length + 1) s { name := [], row := 0, col := 0 } initState []
      (Nat.lt_succ_self _) hesc hwf
      ⟨[], rootElem, rfl, rfl, by
        intro e he
        have he2 : e = rootElem := by
          simpa [initState] using he
        rw [he2]
        rfl⟩
  refine ⟨(ts.foldl stepToken initState).top.children, ?_, ?_⟩
  · show (tokenize s { name := [], row := 0, col := 0 }).map parseTokens =
      some ((ts.foldl stepToken initState).top.children, [])
    rw [show tokenize s { name := [], row := 0, col := 0 } =
      tokenizeF (s.length + 1) s { name := [], row := 0, col := 0 } from rfl]
    rw [hts]
    show some (parseTokens ts) =
      some ((ts.foldl stepToken initState).top.children, [])
    unfold parseTokens finalizeState
    rw [hstk]
    simp only [List.reverse_nil]
    rw [herr]
    rfl
  · have h1 : stRender (ts.foldl stepToken initState) =
        writeNodes (ts.foldl stepToken initState).top.children
          NodeWriteState.Clean := by
      unfold stRender
      rw [hstk]
      exact openRenderList_one _
    show (writeNodes (ts.foldl stepToken initState).top.children
      NodeWriteState.Clean).1 = s
    rw [← h1, hrend]
    rfl

/-- For such an input, `render(parse(x).forest)` is the input itself. -/
theorem renderParse_eq_self (s : List Nat)
    (hesc : noEscaper s = true) (hwf : wfInput s = true) :
    renderParse s = some s := by
  obtain ⟨forest, hp, hr⟩ := parse_render_of_wf s hesc hwf
  unfold renderParse
  rw [hp]
  simp [hr]

/-- C1 (amended): for every all-ASCII, escaper-free input that is well
formed in the checker's sense — every tag ends in a recognizable delimiter,
openers and closers are properly nested and kind-matched with nothing left
open, and an opening tag carries a leading divider exactly when the
preceding chunk ends in a word character — parsing yields no diagnostics and
rendering the parsed forest reproduces the input exactly.  The ASCII
restriction is where the byte-wise lexer model is exact: on non-ASCII bytes
the source's Unicode-mode regex matches scalar encodings, not bytes. -/
theorem C1_round_trip (s : List Nat) (hascii : allAscii s = true)
    (hesc : noEscaper s = true) (hwf : wfInput s = true) :
    ∃ forest, Node.parse s [] = some (forest, []) ∧ render_doc forest = s :=
  parse_render_of_wf s hesc hwf

/-- Witness for C1 at the concrete input `a(b)c`. -/
theorem C1_round_trip_witness :
    allAscii [97, 40, 98, 41, 99] = true ∧
      noEscaper [97, 40, 98, 41, 99] = true ∧
      wfInput [97, 40, 98, 41, 99] = true ∧
      ∃ forest, Node.parse [97, 40, 98, 41, 99] [] = some (forest, []) ∧
        render_doc forest = [97, 40, 98, 41, 99] :=
  ⟨by decide, by decide, by decide,
   C1_round_trip [97, 40, 98, 41, 99] (by decide) (by decide) (by decide)⟩

/-- C9 (amended): for every all-ASCII, escaper-free input satisfying the
round-trip precondition (balanced, kind-matched tags and a leading divider
on an opening tag exactly when the preceding chunk ends in a word
character), `render ∘ parse` is idempotent — indeed it is the identity, so a
second parse/render pass changes nothing.  The ASCII restriction is where
the byte-wise lexer model is exact: on non-ASCII bytes the source's
Unicode-mode regex matches scalar encodings, not bytes. -/
theorem C9_render_idempotent (s : List Nat) (hascii : allAscii s = true)
    (hesc : noEscaper s = true) (hwf : wfInput s = true) :
    (renderParse s).bind renderParse = renderParse s ∧
      renderParse s = some s := by
  have h := renderParse_eq_self s hesc hwf
  constructor
  · rw [h]
    exact h
  · exact h

/-- Witness for C9 at the concrete input `x{y}`. -/
theorem C9_render_idempotent_witness :
    allAscii [120, 123, 121, 125] = true ∧
      noEscaper [120, 123, 121, 125] = true ∧
      wfInput [120, 123, 121, 125] = true ∧
      ((renderParse [120, 123, 121, 125]).bind renderParse =
          renderParse [120, 123, 121, 125] ∧
        renderParse [120, 123, 121, 125] = some [120, 123, 121, 125]) :=
  ⟨by decide, by decide, by decide,
   C9_render_idempotent [120, 123, 121, 125] (by decide) (by decide)
     (by decide)⟩

end Snep
